import Mathlib

/-!
# Verification of the streaming pipeline engine of the yupsh script examples

The repository's examples (`src/pipe-closure/main.go`, `src/file-stats/main.go`,
`src/log-processor/main.go`) exercise a streaming pipeline engine: stages
connected by bounded channel links, with downstream early termination cascading
upstream as cancellation. The engine itself (the gloo framework and the
yupsh commands `seq`, `head`, `tail`, `yes`, `grep`, `awk`) is an external
dependency of the example programs; its behaviour is modelled here from the
specification. The `totalSizeProgram` aggregation stage and the `runExample`
exit logic are translated directly from the source files.
-/

set_option maxRecDepth 8192

namespace PipeSpec

/-- A record flowing between stages: an opaque line of text. -/
abbrev Record := String

/-! ## Channel Link (spec §4.1)

Modelled from the spec: the gloo framework's bounded link between two
adjacent stages, with independently closable send and receive ends, is not
part of this repository's sources.  `send` on a link whose receive end is
closed returns `rejectedClosed` without changing the link; `send` on a full
open link would suspend (`wouldBlock`); otherwise the record is enqueued. -/

inductive SendOutcome where
  | accepted
  | rejectedClosed
  | wouldBlock
  deriving DecidableEq, Repr

structure Link where
  queue : List Record
  capacity : Nat
  senderClosed : Bool
  receiverClosed : Bool
  deriving DecidableEq, Repr

/-- Modelled from the spec: `send(record) -> outcome {accepted, rejected-closed}`;
a send on a link whose receive end is closed fails fast, a send on a full open
link suspends the caller (represented by the `wouldBlock` outcome). -/
def Link.send (l : Link) (r : Record) : SendOutcome × Link :=
  if l.receiverClosed then (.rejectedClosed, l)
  else if l.queue.length < l.capacity then (.accepted, { l with queue := l.queue ++ [r] })
  else (.wouldBlock, l)

/-- Modelled from the spec: `close_receiver()` (idempotent). -/
def Link.closeReceiver (l : Link) : Link :=
  { l with receiverClosed := true }

/-- Modelled from the spec: `close_sender()` (idempotent). -/
def Link.closeSender (l : Link) : Link :=
  { l with senderClosed := true }

/-- A whole sequence of sends, collecting each send's outcome. -/
def Link.sendAll (l : Link) : List Record → List SendOutcome × Link
  | [] => ([], l)
  | r :: rs =>
      let (o, l') := l.send r
      let (os, l'') := l'.sendAll rs
      (o :: os, l'')

/-! ## Synchronous run of a source feeding a quota-limiting consumer
(spec §4.2–4.3)

Modelled from the spec: the engine's schedule for a source feeding a
quota-limiting consumer (`head`).  The consumer consumes each record as soon
as it is sent; once the quota is met it closes its receive end and cancels
the scope, and the source — which checks `is_cancelled()` at every iteration
boundary, before producing the next record — stops without producing more.
A source is a function from a production index to an optional record
(`none` = the source is exhausted and closes its send end). -/

/-- Modelled from the spec: one run of `source → quota-limiter(K)`, starting
at production index `i` with `K` records still wanted.  Returns the output
records and the number of records the source actually produced. -/
def syncRun (src : Nat → Option Record) (i : Nat) : Nat → List Record × Nat
  | 0 => ([], 0)
  | k + 1 =>
      match src i with
      | none => ([], 0)
      | some r =>
          let (out, p) := syncRun src (i + 1) k
          (r :: out, p + 1)

/-- Modelled from the spec: the `seq a b` source, emitting the decimal strings
of `a, a+1, …, b` and then closing its send end. -/
def seqSrc (a b : Nat) (i : Nat) : Option Record :=
  if a + i ≤ b then some (toString (a + i)) else none

/-- Modelled from the spec: the `yes s` source, emitting `s` forever
(a producer with no natural end). -/
def yesSrc (s : Record) (_ : Nat) : Option Record :=
  some s

/-! ## Retain-last-N stage (spec §4.4)

Modelled from the spec: the `tail` command's retain-last-N stage is not part
of this repository's sources.  It buffers records in a fixed-capacity ring of
capacity `N`, overwriting the oldest on overflow; it emits nothing while
consuming; on inbound close it emits the buffered records in original
relative order. -/

/-- A stage machine: per-record step (returning the new state and the records
emitted during that step) plus the records emitted when the inbound link
closes. -/
structure StageM (σ : Type) where
  init : σ
  onRecord : σ → Record → σ × List Record
  onClose : σ → List Record

/-- Run a stage machine over a finite inbound sequence: concatenate the
records emitted at each step, then the records emitted on inbound close. -/
def runStageM {σ : Type} (m : StageM σ) (xs : List Record) : List Record :=
  go m.init xs
where
  go : σ → List Record → List Record
    | s, [] => m.onClose s
    | s, x :: t =>
        let (s', out) := m.onRecord s x
        out ++ go s' t

/-- Modelled from the spec: push one record into a ring of capacity `N`,
overwriting the oldest record on overflow (a ring of capacity 0 holds
nothing). -/
def ringPush (N : Nat) (buf : List Record) (r : Record) : List Record :=
  if N = 0 then []
  else if buf.length < N then buf ++ [r]
  else buf.drop 1 ++ [r]

/-- Modelled from the spec: the retain-last-N stage as a stage machine —
each inbound record is pushed into the ring and nothing is emitted; on
inbound close the buffered records are emitted in original order. -/
def tailM (N : Nat) : StageM (List Record) where
  init := []
  onRecord := fun s r => (ringPush N s r, [])
  onClose := fun s => s

/-- The record list `a, a+1, …, b` rendered as decimal strings, as the `seq`
source emits them. -/
def seqList (a b : Nat) : List Record :=
  (List.range (b + 1 - a)).map (fun i => toString (a + i))

theorem ringPush_length_le (N : Nat) (buf : List Record) (r : Record)
    (h : buf.length ≤ N) : (ringPush N buf r).length ≤ N := by
  unfold ringPush
  split
  · simp
  · split <;> simp_all <;> omega

theorem runStageM_go_tailM (N : Nat) (xs : List Record) (buf : List Record) :
    runStageM.go (tailM N) buf xs = List.foldl (ringPush N) buf xs := by
  induction xs generalizing buf with
  | nil => rfl
  | cons x t ih => simpa [runStageM.go, tailM] using ih (ringPush N buf x)

theorem foldl_ringPush_last (N : Nat) (xs : List Record) :
    List.foldl (ringPush N) [] xs = xs.drop (xs.length - N) := by
  induction xs using List.reverseRecOn with
  | nil => simp
  | append_singleton t x ih =>
      rw [List.foldl_append, List.foldl_cons, List.foldl_nil, ih]
      by_cases hN : N = 0
      · subst hN
        simp [ringPush]
      · by_cases hlt : t.length < N
        · have h1 : t.length - N = 0 := by omega
          have h2 : t.length + 1 - N = 0 := by omega
          simp [ringPush, h1, h2, hlt, hN]
        · have hlen : (t.drop (t.length - N)).length = N := by
            simp
            omega
          have hfull : ¬ (t.drop (t.length - N)).length < N := by omega
          rw [ringPush, if_neg hN, if_neg hfull, List.drop_drop]
          have harith : t.length - N + 1 = t.length + 1 - N := by omega
          rw [harith]
          simp only [List.length_append, List.length_singleton]
          rw [List.drop_append_of_le_length (by omega)]

/-- A run of `yes s` under quota `K` emits `K` copies of `s` and the source
produces exactly `K` records: the recursion is on the quota, so the run is
total (terminates) for every `K`. -/
theorem syncRun_yes (s : Record) (K i : Nat) :
    syncRun (yesSrc s) i K = (List.replicate K s, K) := by
  induction K generalizing i with
  | zero => rfl
  | succ k ih => simp [syncRun, yesSrc, ih, List.replicate_succ]

/-! ## Cancellation Scope (spec §4.2)

Modelled from the spec: the gloo framework's per-run cancellation scope
(`cancel()` idempotent, `is_cancelled()`, `child_scope()`) is not part of
this repository's sources.  The system of scopes of a run and its nested
children is a list: entry `i` holds scope `i`'s parent (always created
earlier, so the parent index is smaller than `i`) and its own cancel flag.
A scope reports cancelled when its own flag is set or an ancestor's is. -/

abbrev ScopeSys := List (Option Nat × Bool)

/-- One step of the ancestor-chain walk: an absent scope is not cancelled, a
root scope is cancelled iff its own flag is set, a child scope also when its
parent (of strictly smaller index) is. -/
def entryCancelled (recval : Nat → Bool) (i : Nat) : Option (Option Nat × Bool) → Bool
  | none => false
  | some (none, b) => b
  | some (some j, b) => b || (decide (j < i) && recval j)

/-- Fuelled ancestor-chain walk; parents have strictly smaller indices, so
fuel `i + 1` always suffices for scope `i`. -/
def isCancelledGo (sys : ScopeSys) : Nat → Nat → Bool
  | 0, _ => false
  | fuel + 1, i => entryCancelled (isCancelledGo sys fuel) i sys[i]?

/-- Modelled from the spec: `is_cancelled()` of scope `i`. -/
def isCancelled (sys : ScopeSys) (i : Nat) : Bool :=
  isCancelledGo sys (i + 1) i

/-- One step of the walk up the parent chain towards scope `i`. -/
def reachEntry (recval : Nat → Bool) (j : Nat) : Option (Option Nat × Bool) → Bool
  | some (some p, _) => decide (p < j) && recval p
  | _ => false

/-- Fuelled walk: does scope `j`'s ancestor chain (itself included) reach
scope `i`? -/
def reachesGo (sys : ScopeSys) : Nat → Nat → Nat → Bool
  | 0, _, _ => false
  | fuel + 1, j, i => (j == i) || reachEntry (fun p => reachesGo sys fuel p i) j sys[j]?

/-- Scope `j` is scope `i` itself or one of its (transitive) child scopes. -/
def reaches (sys : ScopeSys) (j i : Nat) : Bool :=
  reachesGo sys (j + 1) j i

/-- Modelled from the spec: the operations that touch the scope system —
`cancel` (sets the scope's own flag, idempotent), `child_scope` (appends a
fresh, uncancelled scope parented to an existing one), `is_cancelled`
queries and ordinary stage steps (which never write the scope system). -/
inductive ScopeOp where
  | cancel (i : Nat)
  | childScope (p : Nat)
  | query (i : Nat)
  | stageStep
  deriving DecidableEq, Repr

def applyOp (sys : ScopeSys) : ScopeOp → ScopeSys
  | .cancel i => sys.set i ((sys[i]?.getD (none, false)).1, true)
  | .childScope p => if p < sys.length then sys ++ [(some p, false)] else sys
  | .query _ => sys
  | .stageStep => sys

def applyOps (sys : ScopeSys) : List ScopeOp → ScopeSys
  | [] => sys
  | op :: ops => applyOps (applyOp sys op) ops

/-- The scope system `sys2` extends `sys`: every existing scope keeps its parent, and its
cancel flag never goes back from set to unset. -/
def ScopeExtends (sys sys2 : ScopeSys) : Prop :=
  ∀ (k : Nat) (p : Option Nat) (b : Bool), sys[k]? = some (p, b) →
    ∃ b2 : Bool, sys2[k]? = some (p, b2) ∧ (b = true → b2 = true)

theorem scopeExtends_rfl (sys : ScopeSys) : ScopeExtends sys sys :=
  fun _ _ b h => ⟨b, h, fun hb => hb⟩

theorem scopeExtends_trans {a b c : ScopeSys} (h1 : ScopeExtends a b)
    (h2 : ScopeExtends b c) : ScopeExtends a c := by
  intro k p x hget
  obtain ⟨y, hy, hxy⟩ := h1 k p x hget
  obtain ⟨z, hz, hyz⟩ := h2 k p y hy
  exact ⟨z, hz, fun hx => hyz (hxy hx)⟩

theorem scopeExtends_applyOp (sys : ScopeSys) (op : ScopeOp) :
    ScopeExtends sys (applyOp sys op) := by
  cases op with
  | cancel i =>
      intro k p b hget
      rw [applyOp]
      by_cases hk : i = k
      · subst hk
        have hlen : i < sys.length := (List.getElem?_eq_some_iff.mp hget).1
        refine ⟨true, ?_, fun _ => rfl⟩
        rw [List.getElem?_set_self hlen, hget]
        rfl
      · exact ⟨b, by rw [List.getElem?_set_ne hk]; exact hget, fun hb => hb⟩
  | childScope p =>
      intro k q b hget
      rw [applyOp]
      split
      · have hk : k < sys.length := (List.getElem?_eq_some_iff.mp hget).1
        exact ⟨b, by rw [List.getElem?_append_left hk]; exact hget, fun hb => hb⟩
      · exact ⟨b, hget, fun hb => hb⟩
  | query i => exact scopeExtends_rfl sys
  | stageStep => exact scopeExtends_rfl sys

theorem scopeExtends_applyOps (sys : ScopeSys) (ops : List ScopeOp) :
    ScopeExtends sys (applyOps sys ops) := by
  induction ops generalizing sys with
  | nil => exact scopeExtends_rfl sys
  | cons op ops ih =>
      exact scopeExtends_trans (scopeExtends_applyOp sys op) (ih (applyOp sys op))

theorem isCancelledGo_mono_sys {sys sys2 : ScopeSys} (hext : ScopeExtends sys sys2) :
    ∀ fuel i, isCancelledGo sys fuel i = true → isCancelledGo sys2 fuel i = true := by
  intro fuel
  induction fuel with
  | zero => intro i h; simp [isCancelledGo] at h
  | succ f ih =>
      intro i h
      rw [isCancelledGo] at h ⊢
      match hget : sys[i]? with
      | none => rw [hget] at h; simp [entryCancelled] at h
      | some (none, b) =>
          rw [hget] at h
          obtain ⟨b2, hget2, hb⟩ := hext i none b hget
          rw [hget2]
          simp only [entryCancelled] at h ⊢
          exact hb h
      | some (some j, b) =>
          rw [hget] at h
          obtain ⟨b2, hget2, hb⟩ := hext i (some j) b hget
          rw [hget2]
          simp only [entryCancelled, Bool.or_eq_true, Bool.and_eq_true] at h ⊢
          rcases h with h | ⟨hj, h⟩
          · exact Or.inl (hb h)
          · exact Or.inr ⟨hj, ih j h⟩

theorem entryCancelled_mono {r1 r2 : Nat → Bool}
    (hr : ∀ j, r1 j = true → r2 j = true) (i : Nat)
    (e : Option (Option Nat × Bool)) (h : entryCancelled r1 i e = true) :
    entryCancelled r2 i e = true := by
  match e with
  | none => simp [entryCancelled] at h
  | some (none, b) => simpa [entryCancelled] using h
  | some (some j, b) =>
      simp only [entryCancelled, Bool.or_eq_true, Bool.and_eq_true] at h ⊢
      rcases h with h | ⟨hj, h⟩
      · exact Or.inl h
      · exact Or.inr ⟨hj, hr j h⟩

theorem isCancelledGo_mono_fuel (sys : ScopeSys) :
    ∀ fuel fuel2 i, fuel ≤ fuel2 → isCancelledGo sys fuel i = true →
      isCancelledGo sys fuel2 i = true := by
  intro fuel
  induction fuel with
  | zero => intro fuel2 i _ h; simp [isCancelledGo] at h
  | succ f ih =>
      intro fuel2 i hle h
      match fuel2 with
      | 0 => omega
      | f2 + 1 =>
          rw [isCancelledGo] at h ⊢
          exact entryCancelled_mono (fun j hj => ih f2 j (by omega) hj) i sys[i]? h

theorem isCancelled_mono {sys sys2 : ScopeSys} (hext : ScopeExtends sys sys2)
    (i : Nat) (h : isCancelled sys i = true) : isCancelled sys2 i = true :=
  isCancelledGo_mono_sys hext (i + 1) i h

/-- A scope whose ancestor chain reaches a cancelled scope is itself
cancelled. -/
theorem reaches_cancelled (sys : ScopeSys) :
    ∀ fuel j i, reachesGo sys fuel j i = true → isCancelled sys i = true →
      isCancelled sys j = true := by
  intro fuel
  induction fuel with
  | zero => intro j i h _; simp [reachesGo] at h
  | succ f ih =>
      intro j i h hi
      rw [reachesGo] at h
      simp only [Bool.or_eq_true, beq_iff_eq] at h
      rcases h with h | h
      · subst h; exact hi
      · match hget : sys[j]? with
        | none => rw [hget] at h; simp [reachEntry] at h
        | some (none, b) => rw [hget] at h; simp [reachEntry] at h
        | some (some p, b) =>
            rw [hget] at h
            simp only [reachEntry, Bool.and_eq_true, decide_eq_true_eq] at h
            obtain ⟨hpj, hr⟩ := h
            have hp := ih p i hr hi
            rw [isCancelled, isCancelledGo, hget]
            simp only [entryCancelled, Bool.or_eq_true, Bool.and_eq_true,
              decide_eq_true_eq]
            refine Or.inr ⟨hpj, ?_⟩
            exact isCancelledGo_mono_fuel sys (p + 1) j p (by omega) hp

/-! ## Bounded link between a source and a quota-limiting consumer
(spec §5, §8)

Modelled from the spec: a run of `source → link(capacity) → quota-limiter(K)`
under an arbitrary interleaving of producer and consumer steps.  The producer
sends only while the link has room and the receive end is open; the consumer,
once its quota is met, closes its receive end (after which the producer's
sends are rejected and it produces nothing further). -/

structure BufState where
  produced : Nat
  buffered : Nat
  consumed : Nat
  closed : Bool
  deriving DecidableEq, Repr

inductive SchedStep where
  | producer
  | consumer
  deriving DecidableEq, Repr

def initB : BufState := ⟨0, 0, 0, false⟩

/-- One scheduler step: the producer generates its next record and sends it
when the link is open and has room; the consumer closes the receive end once
the quota is met and otherwise consumes a buffered record if any. -/
def stepB (cap K : Nat) (src : Nat → Option Record) (s : BufState) :
    SchedStep → BufState
  | .producer =>
      if s.closed then s
      else if s.buffered < cap then
        match src s.produced with
        | some _ => { s with produced := s.produced + 1, buffered := s.buffered + 1 }
        | none => s
      else s
  | .consumer =>
      if s.closed then s
      else if K ≤ s.consumed then { s with closed := true }
      else if 0 < s.buffered then
        { s with consumed := s.consumed + 1, buffered := s.buffered - 1 }
      else s

def runB (cap K : Nat) (src : Nat → Option Record) (s : BufState) :
    List SchedStep → BufState
  | [] => s
  | st :: sched => runB cap K src (stepB cap K src s st) sched

/-- The run invariant: every produced record is either consumed or still
buffered, the buffer respects the link capacity, and the consumer never
consumes beyond its quota. -/
def BufInv (cap K : Nat) (s : BufState) : Prop :=
  s.produced = s.consumed + s.buffered ∧ s.buffered ≤ cap ∧ s.consumed ≤ K

theorem stepB_inv (cap K : Nat) (src : Nat → Option Record) (s : BufState)
    (st : SchedStep) (h : BufInv cap K s) : BufInv cap K (stepB cap K src s st) := by
  obtain ⟨h1, h2, h3⟩ := h
  cases st with
  | producer =>
      rw [stepB]
      split
      · exact ⟨h1, h2, h3⟩
      · split
        · cases hsrc : src s.produced with
          | none => exact ⟨h1, h2, h3⟩
          | some r => exact ⟨by simp; omega, by simp; omega, h3⟩
        · exact ⟨h1, h2, h3⟩
  | consumer =>
      rw [stepB]
      split
      · exact ⟨h1, h2, h3⟩
      · split
        · exact ⟨h1, h2, h3⟩
        · split
          · exact ⟨by simp; omega, by simp; omega, by simp; omega⟩
          · exact ⟨h1, h2, h3⟩

theorem runB_inv (cap K : Nat) (src : Nat → Option Record)
    (sched : List SchedStep) (s : BufState) (h : BufInv cap K s) :
    BufInv cap K (runB cap K src s sched) := by
  induction sched generalizing s with
  | nil => exact h
  | cons st sched ih => exact ih _ (stepB_inv cap K src s st h)

/-! ## Order preservation through a pipeline (spec §4.3, §8) -/

/-- A stage, seen denotationally as a function on the full record
sequence. -/
abbrev StageFn := List Record → List Record

/-- Modelled from the spec: the pipeline runner chains the stages in order,
each stage consuming its predecessor's output. -/
def runPipeline (stages : List StageFn) (src : List Record) : List Record :=
  stages.foldl (fun acc st => st acc) src

/-- A stage is order-preserving when its output is a subsequence of its
input in the input's order (it passes or drops records, never reorders). -/
def OrderPreserving (st : StageFn) : Prop :=
  ∀ xs : List Record, List.Sublist (st xs) xs

/-- Modelled from the spec: the quota-limiting consumer `head(K)` keeps the
first `K` records. -/
def headStage (K : Nat) : StageFn := fun xs => xs.take K

/-- Modelled from the spec: the filtering transform `grep(pat)` keeps the
records containing `pat` as a substring. -/
def grepStage (pat : String) : StageFn :=
  fun xs => xs.filter (fun r => 1 < (r.splitOn pat).length)

/-! ## Composite stage with nested runs (spec §4.3 step 6, §7)

Modelled from the spec: composite stages (the While-style loop bodies) and
the outcome of a nested run that stops early on a quota. -/

/-- The outcome of one nested Pipeline Run: its output records, whether its
scope was cancelled, and the first StageFailure if any. -/
structure NestedResult where
  out : List Record
  cancelled : Bool
  failure : Option String
  deriving DecidableEq, Repr

/-- Modelled from the spec: a nested run ending in a quota-limiter of quota
`K`, fed the records `xs`: the output is the first `K` records; when the
quota is met with input remaining the limiter closes its receive end and
cancels the nested scope (early-stop), which is not an error — the outcome
carries no StageFailure. -/
def quotaNestedRun (K : Nat) (xs : List Record) : NestedResult :=
  { out := xs.take K, cancelled := decide (K < xs.length), failure := none }

/-- Modelled from the spec: a composite stage forwards each inbound record
into a freshly constructed nested run and waits for its outcome; a nested
StageFailure becomes the composite's own failure and stops it; nested
cancellation without failure does not escape — the composite continues with
the next inbound record. -/
def compositeRun (body : Record → NestedResult) :
    List Record → List Record × Option String
  | [] => ([], none)
  | r :: rs =>
      let n := body r
      match n.failure with
      | some e => (n.out, some e)
      | none =>
          let (out, f) := compositeRun body rs
          (n.out ++ out, f)

@[simp] theorem quotaNestedRun_out (K : Nat) (xs : List Record) :
    (quotaNestedRun K xs).out = xs.take K := rfl

@[simp] theorem quotaNestedRun_failure (K : Nat) (xs : List Record) :
    (quotaNestedRun K xs).failure = none := rfl

theorem quotaNestedRun_cancelled (K : Nat) (xs : List Record) :
    (quotaNestedRun K xs).cancelled = decide (K < xs.length) := rfl

theorem compositeRun_quota (K : Nat) (f : Record → List Record)
    (inputs : List Record) :
    compositeRun (fun r => quotaNestedRun K (f r)) inputs =
      ((inputs.map (fun r => (f r).take K)).flatten, none) := by
  induction inputs with
  | nil => rfl
  | cons r rs ih => simp [compositeRun, ih]

/-! ## Process-exit contract (`runExample` in src/pipe-closure/main.go,
spec §6–7) -/

/-- What the process does after a run: the line written to standard error,
if any, and the exit code. -/
structure ProcResult where
  stderrMsg : Option String
  exitCode : Nat
  deriving DecidableEq, Repr

/-- Translated from `runExample` in src/pipe-closure/main.go: a non-nil
error from `gloo.Run` is reported on standard error and the process exits
with code 1; with a nil error execution continues and the process exits
with code 0 at the end of `main`. -/
def runExample (outcome : Option String) : ProcResult :=
  match outcome with
  | some e => { stderrMsg := some ("Error: " ++ e ++ "\n"), exitCode := 1 }
  | none => { stderrMsg := none, exitCode := 0 }

/-! ## The totalSizeProgram aggregation stage
(src/file-stats/main.go, lines 230–260) -/

/-- Two's-complement wrap-around of Go's `int64` arithmetic. -/
def wrap64 (n : Int) : Int :=
  (n + 2 ^ 63) % 2 ^ 64 - 2 ^ 63

def digitVal (c : Char) : Nat := c.toNat - 48

def natOfDigits (ds : List Char) : Nat :=
  ds.foldl (fun a c => a * 10 + digitVal c) 0

/-- Translated from `fmt.Sscanf(ctx.Field(1), "%d", &size)` with
`var size int64`: leading whitespace is skipped, an optional sign and a run
of decimal digits are read; when no digit follows (or the value overflows
int64) the scan fails and `size` keeps its zero value. -/
def sscanfD (s : String) : Int :=
  let cs := s.data.dropWhile Char.isWhitespace
  let sign : Int := match cs with
    | '-' :: _ => -1
    | _ => 1
  let rest := match cs with
    | '-' :: t => t
    | '+' :: t => t
    | t => t
  let ds := rest.takeWhile Char.isDigit
  if ds.isEmpty then 0
  else
    let v := sign * (natOfDigits ds : Int)
    if v < -(2 ^ 63) ∨ 2 ^ 63 ≤ v then 0 else v

/-- Translated from the awk context's `ctx.Field(1)`: fields are the maximal
whitespace-free substrings of the line; field 1 is the first of them (the
empty string on a blank line): the run of non-whitespace characters that
follows the leading whitespace. -/
def awkField1 (line : String) : String :=
  ⟨(line.data.dropWhile Char.isWhitespace).takeWhile (fun c => !c.isWhitespace)⟩

/-- Translated from `totalSizeProgram.Action`: parse field 1 as with
`fmt.Sscanf "%d"`, add it to the running int64 sum, and emit nothing
(`return "", false`). -/
def totalSizeAction (sum : Int) (line : String) : Int × Option String :=
  (wrap64 (sum + sscanfD (awkField1 line)), none)

/-- Translated from `totalSizeProgram.End`:
`fmt.Sprintf("Total: %d bytes", p.sum)`. -/
def totalSizeEnd (sum : Int) : String :=
  "Total: " ++ toString sum ++ " bytes"

/-- The awk run of `totalSizeProgram`: thread the accumulator through
`Action` for each input line, collecting the per-line emissions, then emit
the `End` line. -/
def totalSizeRun (lines : List String) : List String × String :=
  go 0 lines
where
  go (sum : Int) : List String → List String × String
    | [] => ([], totalSizeEnd sum)
    | l :: ls =>
        let (sum2, e) := totalSizeAction sum l
        let (es, fin) := go sum2 ls
        (e.toList ++ es, fin)

/-- The specified total: over all input lines, the int64 sum of the decimal
value scanned from each line's first field (0 when it does not parse). -/
def totalOf (lines : List String) : Int :=
  lines.foldl (fun a l => wrap64 (a + sscanfD (awkField1 l))) 0

theorem totalSizeRun_go (lines : List String) : ∀ sum : Int,
    totalSizeRun.go sum lines =
      ([], totalSizeEnd (lines.foldl (fun a l => wrap64 (a + sscanfD (awkField1 l))) sum)) := by
  induction lines with
  | nil => intro sum; rfl
  | cons l ls ih =>
      intro sum
      simp [totalSizeRun.go, totalSizeAction, ih]

end PipeSpec

open PipeSpec

/-- C1: once the receive end of a Channel Link is closed, every subsequent
`send` returns the `rejectedClosed` outcome immediately and leaves the link
unchanged — it never blocks (`wouldBlock`) and never faults, for every record
sent and for arbitrarily many sends after the close. -/
theorem send_on_closed_link_rejected (l : Link) (h : l.receiverClosed = true)
    (r : Record) (rs : List Record) :
    l.send r = (SendOutcome.rejectedClosed, l) ∧
    (l.sendAll rs).1 = rs.map (fun _ => SendOutcome.rejectedClosed) ∧
    (l.sendAll rs).2 = l := by
  have hsend : ∀ r' : Record, l.send r' = (SendOutcome.rejectedClosed, l) := by
    intro r'
    simp [Link.send, h]
  refine ⟨hsend r, ?_⟩
  induction rs with
  | nil => simp [Link.sendAll]
  | cons x xs ih => simp [Link.sendAll, hsend x, ih]

/-- Witness for C1: a concrete link whose receive end has been closed rejects
two consecutive sends and is left unchanged. -/
theorem send_on_closed_link_rejected_witness :
    (Link.closeReceiver ⟨[], 4, false, false⟩).receiverClosed = true ∧
    ((Link.closeReceiver ⟨[], 4, false, false⟩).sendAll ["a", "b"]).1 =
      [SendOutcome.rejectedClosed, SendOutcome.rejectedClosed] := by
  refine ⟨rfl, ?_⟩
  have h := send_on_closed_link_rejected (Link.closeReceiver ⟨[], 4, false, false⟩)
    rfl "a" ["a", "b"]
  exact h.2.1

/-- C4: for every capacity `N` and finite input `xs` of length `L`, the
retain-last-N stage emits nothing while consuming (each per-record step emits
`[]` — records appear only after the inbound link closes) and its run emits
exactly the final `min N L` records of the input in original relative order;
in particular `seq 1 100 → tail(5)` yields "96" … "100". -/
theorem tail_retains_last (N : Nat) (xs : List Record) :
    runStageM (tailM N) xs = xs.drop (xs.length - N) ∧
    (runStageM (tailM N) xs).length = min N xs.length ∧
    (∀ s r, ((tailM N).onRecord s r).2 = []) ∧
    runStageM (tailM 5) (seqList 1 100) = ["96", "97", "98", "99", "100"] := by
  have hmain : ∀ (M : Nat) (ys : List Record),
      runStageM (tailM M) ys = ys.drop (ys.length - M) := by
    intro M ys
    show runStageM.go (tailM M) (tailM M).init ys = _
    rw [show (tailM M).init = ([] : List Record) from rfl,
      runStageM_go_tailM, foldl_ringPush_last]
  refine ⟨hmain N xs, ?_, fun s r => rfl, (hmain 5 (seqList 1 100)).trans (by decide)⟩
  rw [hmain N xs, List.length_drop]
  omega

/-- C2: the pipeline `seq 1 10 → head(3)` outputs exactly the records
"1", "2", "3" in order, and the source produces exactly 3 records — it is
never asked to produce records 4 through 10. -/
theorem seq_head3_run :
    syncRun (seqSrc 1 10) 0 3 = (["1", "2", "3"], 3) := by
  decide

/-- C3: composing the infinite `yes "hello"` source with a quota-limiting
consumer of quota `K` yields a run whose value is defined (the run function
is total by recursion on the quota) and whose output is exactly `K` copies of
"hello"; in particular for `K = 3` the output is three "hello" records. -/
theorem yes_head_terminates (K : Nat) :
    syncRun (yesSrc "hello") 0 K = (List.replicate K "hello", K) ∧
    syncRun (yesSrc "hello") 0 3 = (["hello", "hello", "hello"], 3) := by
  refine ⟨syncRun_yes "hello" K 0, ?_⟩
  rw [syncRun_yes "hello" 3 0]
  rfl

/-- C5: cancellation of a Cancellation Scope is monotonic: for every scope
system in which scope `i` reports cancelled and every sequence of operations
(cancel, child_scope, is_cancelled queries, stage steps), scope `i` still
reports cancelled afterwards — no operation transitions it back to active —
and so does every scope whose ancestor chain reaches `i`, i.e. all of its
child scopes. -/
theorem scope_cancel_monotonic (sys : ScopeSys) (ops : List ScopeOp) (i j : Nat)
    (hc : isCancelled sys i = true)
    (hr : reaches (applyOps sys ops) j i = true) :
    isCancelled (applyOps sys ops) i = true ∧
    isCancelled (applyOps sys ops) j = true := by
  have hi := isCancelled_mono (scopeExtends_applyOps sys ops) i hc
  exact ⟨hi, reaches_cancelled (applyOps sys ops) (j + 1) j i hr hi⟩

/-- Witness for C5: a concrete cancelled root scope stays cancelled after a
child scope is created and a stage step runs, and the new child scope
reports cancelled as well. -/
theorem scope_cancel_monotonic_witness :
    isCancelled (applyOps [((none : Option Nat), true)]
      [ScopeOp.childScope 0, ScopeOp.stageStep]) 0 = true ∧
    isCancelled (applyOps [((none : Option Nat), true)]
      [ScopeOp.childScope 0, ScopeOp.stageStep]) 1 = true := by
  have h := scope_cancel_monotonic [((none : Option Nat), true)]
    [ScopeOp.childScope 0, ScopeOp.stageStep] 0 1 (by decide) (by decide)
  exact ⟨h.1, h.2⟩

/-- C6: for every source, every quota `K` and every scheduling of producer
and consumer steps over a link of capacity `cap`, the number of records fully
produced upstream of the quota-limiting consumer never exceeds `K + cap`:
the excess over the quota is bounded by the Channel Link capacity, even for
an unbounded source. -/
theorem quota_bounds_upstream_production (cap K : Nat)
    (src : Nat → Option Record) (sched : List SchedStep) :
    (runB cap K src initB sched).produced ≤ K + cap := by
  have h := runB_inv cap K src sched initB ⟨rfl, Nat.zero_le cap, Nat.zero_le K⟩
  obtain ⟨h1, h2, h3⟩ := h
  omega

/-- C7: for every pipeline composed only of order-preserving stages, the
run's output sequence is a subsequence of the source's record sequence in
the source's original order. -/
theorem order_preserving_pipeline (stages : List StageFn)
    (h : ∀ st ∈ stages, OrderPreserving st) (src : List Record) :
    List.Sublist (runPipeline stages src) src := by
  induction stages generalizing src with
  | nil => exact List.Sublist.refl src
  | cons st rest ih =>
      have h1 : List.Sublist (st src) src := h st (by simp) src
      have h2 : List.Sublist (runPipeline rest (st src)) (st src) :=
        ih (fun s hs => h s (by simp [hs])) (st src)
      exact h2.trans h1

/-- Witness for C7: the concrete order-preserving pipeline
`seq 1 20 → head(5) → grep("3")` yields a subsequence of the source's
output. -/
theorem order_preserving_pipeline_witness :
    List.Sublist (runPipeline [headStage 5, grepStage "3"] (seqList 1 20))
      (seqList 1 20) := by
  apply order_preserving_pipeline
  intro st hst
  simp only [List.mem_cons, List.not_mem_nil, or_false] at hst
  rcases hst with rfl | rfl
  · exact fun xs => List.take_sublist 5 xs
  · exact fun xs => List.filter_sublist xs

/-- C8: a composite stage whose nested run is cancelled by an early-stop (a
quota-limiter inside the nested run closing its receive end before its input
is exhausted) reports no StageFailure to the outer run: every nested outcome
is cancelled yet failure-free, the outer run's outcome carries no failure,
and the composite processes all its inbound records, emitting each nested
run's output in turn. -/
theorem nested_early_stop_not_failure (inputs : List Record)
    (f : Record → List Record) (K : Nat)
    (h : ∀ r ∈ inputs, K < (f r).length) :
    (∀ r ∈ inputs, (quotaNestedRun K (f r)).cancelled = true ∧
      (quotaNestedRun K (f r)).failure = none) ∧
    compositeRun (fun r => quotaNestedRun K (f r)) inputs =
      ((inputs.map (fun r => (f r).take K)).flatten, none) := by
  refine ⟨fun r hr => ⟨?_, rfl⟩, compositeRun_quota K f inputs⟩
  rw [quotaNestedRun_cancelled]
  exact decide_eq_true (h r hr)

/-- Witness for C8: a composite stage over two inbound records, each
spawning a nested run of two records cut to one by a quota-limiter of quota
1, reports no failure and processes both records. -/
theorem nested_early_stop_not_failure_witness :
    (quotaNestedRun 1 ["x", "y"]).cancelled = true ∧
    compositeRun (fun _ => quotaNestedRun 1 ["x", "y"]) ["a", "b"] =
      (["x", "x"], none) := by
  have h := nested_early_stop_not_failure ["a", "b"] (fun _ => ["x", "y"]) 1
    (fun r _ => by simp)
  exact ⟨(h.1 "a" (by simp)).1, h.2⟩

/-- C9: the process-exit contract of `runExample`: the process exits 0 and
prints nothing to standard error exactly when the run outcome is success
(`nil` error), and reports the error with a non-zero exit code otherwise;
a clean early-stop — the quota-limited run of `seq 1 10 → head(3)`, whose
scope is cancelled but which carries no StageFailure — is a success outcome
and exits 0 even though the upstream source produced only 3 of its 10
records. -/
theorem exit_code_contract (o : Option String) :
    ((runExample o).exitCode = 0 ↔ o = none) ∧
    ((runExample o).stderrMsg = none ↔ o = none) ∧
    (quotaNestedRun 3 (seqList 1 10)).cancelled = true ∧
    (quotaNestedRun 3 (seqList 1 10)).out = ["1", "2", "3"] ∧
    runExample (quotaNestedRun 3 (seqList 1 10)).failure =
      { stderrMsg := none, exitCode := 0 } := by
  refine ⟨?_, ?_, by decide, by decide, rfl⟩
  · cases o <;> simp [runExample]
  · cases o <;> simp [runExample]

/-- C10: for every finite input, the totalSizeProgram stage emits nothing
while consuming lines and at end of input emits exactly one line
`Total: S bytes`, where `S` is the int64 sum over all lines of the decimal
value scanned from each line's first field (a field that does not scan as a
decimal integer contributes 0, as in the concrete run on
["12", "abc", "30"]). -/
theorem total_size_aggregation (lines : List String) :
    totalSizeRun lines = ([], "Total: " ++ toString (totalOf lines) ++ " bytes") ∧
    (∀ (sum : Int) (line : String), (totalSizeAction sum line).2 = none) ∧
    totalSizeRun ["12", "abc", "30"] = ([], "Total: 42 bytes") := by
  refine ⟨?_, fun _ _ => rfl, by decide⟩
  rw [show totalSizeRun lines = totalSizeRun.go 0 lines from rfl, totalSizeRun_go]
  rfl
